import Mathlib

/-!
# Verification of the Elysia in-memory CRUD item store

Shallow embedding of `src/elysiaApp.ts`: an HTTP CRUD service over a single
in-memory store holding an ordered list of items and a `nextId` counter.

The embedding has two layers:

* A value-semantics model (`Store`, `getItems`, `getItem`, `postItems`,
  `putItem`, `deleteItem`) in which the JavaScript array is modelled as a
  `List Item` value.  This is adequate for every property that speaks about
  the contents and order of the store.
* A heap model (`HeapStore`, `hGetItems`, `hPostItems`, `hDeleteItem`) that
  makes JavaScript reference semantics explicit, used for aliasing
  properties of the list handler: `store.items.push(...)` mutates the array
  object in place, while `store.items = store.items.filter(...)` rebinds
  the field to a freshly allocated array.
-/

/-- An item of the store: `{ id: number; name: string }` in the source.
Ids are positive integers assigned by the store, so `Nat` models them. -/
structure Item where
  id : Nat
  name : String
deriving Repr, DecidableEq

/-- The store: `interface Store { items: {id, name}[]; nextId: number }`. -/
structure Store where
  items : List Item
  nextId : Nat
deriving Repr, DecidableEq

/-- The initial store: empty items, `nextId = 1` (lines 20-21 / 26-29). -/
def initStore : Store := { items := [], nextId := 1 }

/-- A plain-text HTTP response: `new Response(body, { status })`. -/
structure TextResponse where
  body : String
  status : Nat
deriving Repr, DecidableEq

/-- Outcome of a handler that either returns an item (serialized with
status 200) or a plain-text error response. -/
inductive ItemResult where
  | ok (item : Item)
  | err (resp : TextResponse)
deriving Repr, DecidableEq

/-- The canonical not-found response:
`new Response("Item not found", { status: 404 })`. -/
def notFoundResponse : TextResponse := { body := "Item not found", status := 404 }

/-- `GET /` handler (line 35): returns a fixed banner string; the framework
serves it with status 200.  It does not touch the store. -/
def getRoot (s : Store) : TextResponse × Store :=
  ({ body := "ElysiaJS CRUD In-Memory Example", status := 200 }, s)

/-- `GET /items` handler (lines 37-46): `return store.items`. -/
def getItems (s : Store) : List Item × Store :=
  (s.items, s)

/-- `GET /items/:id` handler (lines 48-64):
`store.items.find((i) => i.id === id)`, 404 when absent. -/
def getItem (s : Store) (id : Nat) : ItemResult × Store :=
  match s.items.find? (fun i => i.id == id) with
  | some item => (.ok item, s)
  | none => (.err notFoundResponse, s)

/-- `POST /items` handler (lines 66-79):
`newItem = { id: store.nextId++, name: body.name }; store.items.push(newItem)`. -/
def postItems (s : Store) (name : String) : Item × Store :=
  let newItem : Item := { id := s.nextId, name := name }
  (newItem, { items := s.items ++ [newItem], nextId := s.nextId + 1 })

/-- `PUT /items/:id` handler (lines 81-100):
`findIndex`, 404 when `-1`, otherwise `store.items[itemIndex] = { id, name }`
and return the stored element. -/
def putItem (s : Store) (id : Nat) (name : String) : ItemResult × Store :=
  match s.items.findIdx? (fun i => i.id == id) with
  | some itemIndex =>
      let items' := s.items.set itemIndex { id := id, name := name }
      (.ok { id := id, name := name }, { s with items := items' })
  | none => (.err notFoundResponse, s)

/-- `DELETE /items/:id` handler (lines 102-118): unconditionally rebinds
`store.items` to `store.items.filter((i) => i.id !== id)`, then compares
lengths to decide between 404 and the success response. -/
def deleteItem (s : Store) (id : Nat) : TextResponse × Store :=
  let initialLength := s.items.length
  let newItems := s.items.filter (fun i => i.id != id)
  let s' : Store := { s with items := newItems }
  if newItems.length = initialLength then
    ({ body := "Item not found", status := 404 }, s')
  else
    ({ body := "Item deleted successfully", status := 200 }, s')

/-- A client-visible operation on the store. -/
inductive Op where
  | create (name : String)
  | update (id : Nat) (name : String)
  | delete (id : Nat)
  | get (id : Nat)
  | list
deriving Repr, DecidableEq

/-- The store state after one operation. -/
def applyOp (s : Store) : Op → Store
  | .create name => (postItems s name).2
  | .update id name => (putItem s id name).2
  | .delete id => (deleteItem s id).2
  | .get id => (getItem s id).2
  | .list => (getItems s).2

/-- The store state after a sequence of operations. -/
def runOps (s : Store) : List Op → Store
  | [] => s
  | op :: ops => runOps (applyOp s op) ops

/-- A state is reachable if some operation sequence leads to it from the
initial store. -/
def Reachable (s : Store) : Prop := ∃ ops, runOps initStore ops = s

/-- The ids returned by the Create calls of an operation sequence run from
`s`, in call order. -/
def issuedIds (s : Store) : List Op → List Nat
  | [] => []
  | .create name :: ops => s.nextId :: issuedIds (applyOp s (.create name)) ops
  | .update id name :: ops => issuedIds (applyOp s (.update id name)) ops
  | .delete id :: ops => issuedIds (applyOp s (.delete id)) ops
  | .get id :: ops => issuedIds (applyOp s (.get id)) ops
  | .list :: ops => issuedIds (applyOp s .list) ops

/-- The store invariant: ids in the store are pairwise distinct and all
strictly below `nextId`. -/
def StoreInv (s : Store) : Prop :=
  (s.items.map Item.id).Nodup ∧ ∀ i ∈ s.items, i.id < s.nextId

example : runOps initStore [.create "Widget"] =
    { items := [{ id := 1, name := "Widget" }], nextId := 2 } := by decide

example : issuedIds initStore [.create "a", .delete 1, .create "b"] = [1, 2] := by decide

/-- Setting an index to the value it already holds is the identity. -/
theorem list_set_getElem_eq_self {α : Type _} {l : List α} {i : Nat} {a : α}
    (h : i < l.length) (ha : l[i] = a) : l.set i a = l := by
  apply List.ext_getElem?
  intro n
  by_cases hn : i = n
  · subst hn
    rw [List.getElem?_set_self h, List.getElem?_eq_getElem h, ha]
  · rw [List.getElem?_set_ne hn]

/-- No single operation decreases the `nextId` counter. -/
theorem nextId_le_applyOp (s : Store) (op : Op) : s.nextId ≤ (applyOp s op).nextId := by
  cases op with
  | create name => simp [applyOp, postItems]
  | update id name =>
      simp only [applyOp, putItem]
      cases s.items.findIdx? (fun i => i.id == id) <;> simp
  | delete id =>
      simp only [applyOp, deleteItem]
      split <;> simp
  | get id =>
      simp only [applyOp, getItem]
      cases s.items.find? (fun i => i.id == id) <;> simp
  | list => simp [applyOp, getItems]

/-- No operation sequence decreases the `nextId` counter. -/
theorem nextId_le_runOps (s : Store) (ops : List Op) : s.nextId ≤ (runOps s ops).nextId := by
  induction ops generalizing s with
  | nil => exact Nat.le_refl _
  | cons op ops ih =>
      exact Nat.le_trans (nextId_le_applyOp s op) (ih (applyOp s op))

/-- Every operation preserves the store invariant. -/
theorem storeInv_applyOp {s : Store} (h : StoreInv s) (op : Op) : StoreInv (applyOp s op) := by
  obtain ⟨hnodup, hlt⟩ := h
  cases op with
  | create name =>
      constructor
      · simp only [applyOp, postItems, List.map_append, List.map_cons, List.map_nil]
        refine List.Nodup.append hnodup (List.nodup_singleton _) ?_
        intro x hx hx'
        simp only [List.mem_singleton] at hx'
        subst hx'
        obtain ⟨i, hi, hid⟩ := List.mem_map.1 hx
        exact absurd (hid ▸ hlt i hi) (Nat.lt_irrefl _)
      · intro i hi
        simp only [applyOp, postItems, List.mem_append, List.mem_singleton] at hi
        rcases hi with hi | hi
        · exact Nat.lt_trans (hlt i hi) (Nat.lt_succ_self _)
        · subst hi; exact Nat.lt_succ_self _
  | update id name =>
      simp only [applyOp, putItem]
      cases hfind : s.items.findIdx? (fun i => i.id == id) with
      | none => exact ⟨hnodup, hlt⟩
      | some itemIndex =>
          obtain ⟨hlen, hp, -⟩ := List.findIdx?_eq_some_iff_getElem.1 hfind
          have hid : (s.items[itemIndex]).id = id := by simpa using hp
          constructor
          · simp only
            rw [List.map_set]
            have hlen' : itemIndex < (s.items.map Item.id).length := by simpa using hlen
            have hmapid : (s.items.map Item.id)[itemIndex] = id := by
              rw [List.getElem_map]
              exact hid
            rw [list_set_getElem_eq_self hlen' hmapid]
            exact hnodup
          · intro i hi
            simp only at hi
            rcases List.mem_or_eq_of_mem_set hi with hi' | hi'
            · exact hlt i hi'
            · subst hi'
              show id < s.nextId
              exact hid ▸ hlt _ (List.getElem_mem hlen)
  | delete id =>
      simp only [applyOp, deleteItem]
      split
      · constructor
        · exact ((List.filter_sublist s.items).map Item.id).nodup hnodup
        · intro i hi
          exact hlt i (List.mem_filter.1 hi).1
      · constructor
        · exact ((List.filter_sublist s.items).map Item.id).nodup hnodup
        · intro i hi
          exact hlt i (List.mem_filter.1 hi).1
  | get id =>
      simp only [applyOp, getItem]
      cases s.items.find? (fun i => i.id == id) <;> exact ⟨hnodup, hlt⟩
  | list => exact ⟨hnodup, hlt⟩

/-- The initial store satisfies the invariant. -/
theorem storeInv_initStore : StoreInv initStore :=
  ⟨List.nodup_nil, by intro i hi; simp [initStore] at hi⟩

/-- Operation sequences preserve the store invariant. -/
theorem storeInv_runOps {s : Store} (h : StoreInv s) (ops : List Op) :
    StoreInv (runOps s ops) := by
  induction ops generalizing s with
  | nil => exact h
  | cons op ops ih => exact ih (storeInv_applyOp h op)

/-- Every reachable state satisfies the store invariant. -/
theorem storeInv_of_reachable {s : Store} (h : Reachable s) : StoreInv s := by
  obtain ⟨ops, rfl⟩ := h
  exact storeInv_runOps storeInv_initStore ops

/-- Every id issued by a Create in the run is at least the starting
`nextId`. -/
theorem le_of_mem_issuedIds {s : Store} {ops : List Op} {id : Nat}
    (h : id ∈ issuedIds s ops) : s.nextId ≤ id := by
  induction ops generalizing s with
  | nil => simp [issuedIds] at h
  | cons op ops ih =>
      cases op with
      | create name =>
          simp only [issuedIds] at h
          rcases List.mem_cons.1 h with h' | h'
          · exact h' ▸ Nat.le_refl _
          · exact Nat.le_trans (nextId_le_applyOp s (.create name)) (ih h')
      | update id2 name =>
          exact Nat.le_trans (nextId_le_applyOp s (.update id2 name))
            (ih (by simpa [issuedIds] using h))
      | delete id2 =>
          exact Nat.le_trans (nextId_le_applyOp s (.delete id2))
            (ih (by simpa [issuedIds] using h))
      | get id2 =>
          exact Nat.le_trans (nextId_le_applyOp s (.get id2))
            (ih (by simpa [issuedIds] using h))
      | list =>
          exact Nat.le_trans (nextId_le_applyOp s .list)
            (ih (by simpa [issuedIds] using h))

/-- Every id issued by a Create in the run is strictly below the final
`nextId`. -/
theorem lt_runOps_nextId_of_mem_issuedIds {s : Store} {ops : List Op} {id : Nat}
    (h : id ∈ issuedIds s ops) : id < (runOps s ops).nextId := by
  induction ops generalizing s with
  | nil => simp [issuedIds] at h
  | cons op ops ih =>
      cases op with
      | create name =>
          simp only [issuedIds] at h
          simp only [runOps]
          rcases List.mem_cons.1 h with h' | h'
          · subst h'
            have h1 : s.nextId < (applyOp s (.create name)).nextId := by
              simp [applyOp, postItems]
            exact Nat.lt_of_lt_of_le h1 (nextId_le_runOps _ ops)
          · exact ih h'
      | update id2 name =>
          simp only [issuedIds] at h
          simp only [runOps]
          exact ih h
      | delete id2 =>
          simp only [issuedIds] at h
          simp only [runOps]
          exact ih h
      | get id2 =>
          simp only [issuedIds] at h
          simp only [runOps]
          exact ih h
      | list =>
          simp only [issuedIds] at h
          simp only [runOps]
          exact ih h

/-- C1. For every reachable store state (any sequence of operations from
the empty store with `nextId = 1`), the ids of the stored items are
pairwise distinct, and `nextId` is strictly greater than every id in the
store and every id ever issued by a Create. -/
theorem reachable_store_ids_nodup_and_nextId_dominates (ops : List Op) :
    ((runOps initStore ops).items.map Item.id).Nodup ∧
      (∀ i ∈ (runOps initStore ops).items, i.id < (runOps initStore ops).nextId) ∧
      (∀ id ∈ issuedIds initStore ops, id < (runOps initStore ops).nextId) := by
  obtain ⟨hnodup, hlt⟩ := storeInv_runOps storeInv_initStore ops
  exact ⟨hnodup, hlt, fun id hid => lt_runOps_nextId_of_mem_issuedIds hid⟩

/-- C2. `Create(name)` returns the item `{id := nextId, name}`, appends it
at the end of the items sequence (the existing items and their order are
untouched), and increments `nextId` by one.  Its result type has no error
alternative: it succeeds on every store and every name. -/
theorem postItems_spec (s : Store) (name : String) :
    (postItems s name).1 = { id := s.nextId, name := name } ∧
      (postItems s name).2.items = s.items ++ [{ id := s.nextId, name := name }] ∧
      (postItems s name).2.nextId = s.nextId + 1 :=
  ⟨rfl, rfl, rfl⟩

/-- C3. In any run, the ids returned by the Create calls, in call order,
are strictly increasing, hence pairwise distinct. -/
theorem issuedIds_strictly_increasing (s : Store) (ops : List Op) :
    (issuedIds s ops).Pairwise (· < ·) ∧ (issuedIds s ops).Nodup := by
  have hpair : ∀ t : Store, ∀ l : List Op, (issuedIds t l).Pairwise (· < ·) := by
    intro t l
    induction l generalizing t with
    | nil => simp [issuedIds]
    | cons op ops ih =>
        cases op with
        | create name =>
            simp only [issuedIds]
            refine List.Pairwise.cons ?_ (ih _)
            intro b hb
            have h1 : (applyOp t (.create name)).nextId ≤ b := le_of_mem_issuedIds hb
            have h2 : t.nextId < (applyOp t (.create name)).nextId := by
              simp [applyOp, postItems]
            exact Nat.lt_of_lt_of_le h2 h1
        | update id2 name => simpa only [issuedIds] using ih (applyOp t (.update id2 name))
        | delete id2 => simpa only [issuedIds] using ih (applyOp t (.delete id2))
        | get id2 => simpa only [issuedIds] using ih (applyOp t (.get id2))
        | list => simpa only [issuedIds] using ih (applyOp t .list)
  exact ⟨hpair s ops, (hpair s ops).imp Nat.ne_of_lt⟩

/-- C4. When an item with the given id is present, `Update(id, name)`
rewrites exactly the slot that held it: the returned item is
`{id, name}`, the slot previously held an item with that same id, the
sequence keeps its length, every other slot is untouched, and `nextId`
is unchanged. -/
theorem putItem_updates_in_place (s : Store) (id : Nat) (name : String)
    (h : ∃ i ∈ s.items, i.id = id) :
    ∃ idx, s.items.findIdx? (fun i => i.id == id) = some idx ∧
      (s.items.map Item.id)[idx]? = some id ∧
      (putItem s id name).1 = .ok { id := id, name := name } ∧
      (putItem s id name).2.items = s.items.set idx { id := id, name := name } ∧
      (putItem s id name).2.items.length = s.items.length ∧
      (∀ j, j ≠ idx → (putItem s id name).2.items[j]? = s.items[j]?) ∧
      (putItem s id name).2.items[idx]? = some { id := id, name := name } ∧
      (putItem s id name).2.nextId = s.nextId := by
  have hex : ∃ x, x ∈ s.items ∧ (fun i => i.id == id) x = true := by
    obtain ⟨i0, hi0, hid0⟩ := h
    exact ⟨i0, hi0, by simpa using hid0⟩
  have hfind := List.findIdx?_eq_some_of_exists hex
  obtain ⟨hlen, hp, -⟩ := List.findIdx?_eq_some_iff_getElem.1 hfind
  refine ⟨s.items.findIdx (fun i => i.id == id), hfind, ?_, ?_, ?_, ?_, ?_, ?_, ?_⟩
  · rw [List.getElem?_map, List.getElem?_eq_getElem hlen]
    simpa using hp
  · simp [putItem, hfind]
  · simp [putItem, hfind]
  · simp [putItem, hfind]
  · intro j hj
    simp only [putItem, hfind]
    exact List.getElem?_set_ne (fun he => hj he.symm)
  · simp only [putItem, hfind]
    exact List.getElem?_set_self hlen
  · simp [putItem, hfind]

/-- C4 witness: updating id 1 in a singleton store. -/
theorem putItem_updates_in_place_witness :
    (putItem { items := [{ id := 1, name := "Widget" }], nextId := 2 } 1 "Gadget").1 =
        .ok { id := 1, name := "Gadget" } ∧
      (putItem { items := [{ id := 1, name := "Widget" }], nextId := 2 } 1 "Gadget").2.items =
        [{ id := 1, name := "Gadget" }] := by
  obtain ⟨idx, hfind, -, hret, hitems, -, -, -, -⟩ :=
    putItem_updates_in_place { items := [{ id := 1, name := "Widget" }], nextId := 2 } 1 "Gadget"
      ⟨{ id := 1, name := "Widget" }, by simp, rfl⟩
  have hidx : idx = 0 := by
    have : ([{ id := 1, name := "Widget" }] : List Item).findIdx?
        (fun i => i.id == 1) = some 0 := by decide
    have := hfind.symm.trans this
    simpa using this
  subst hidx
  exact ⟨hret, hitems⟩

/-- C5. On a reachable store holding an item with the given id,
`Delete(id)` answers the success response, removes every item with that
id while keeping the other items in order, leaves `nextId` unchanged,
a following `List()` shows no item with that id, and a following
`Create` returns an id different from the deleted one. -/
theorem deleteItem_removes_and_never_reuses {s : Store} (hs : Reachable s)
    (id : Nat) (name : String) (h : ∃ i ∈ s.items, i.id = id) :
    (deleteItem s id).1 = { body := "Item deleted successfully", status := 200 } ∧
      (deleteItem s id).2.nextId = s.nextId ∧
      (deleteItem s id).2.items = s.items.filter (fun i => i.id != id) ∧
      (∀ i ∈ (getItems (deleteItem s id).2).1, i.id ≠ id) ∧
      (postItems (deleteItem s id).2 name).1.id ≠ id := by
  have hcond : ¬ (s.items.filter (fun i => i.id != id)).length = s.items.length := by
    intro heq
    obtain ⟨i0, hi0, hid0⟩ := h
    have := List.filter_length_eq_length.1 heq i0 hi0
    rw [hid0] at this
    simp at this
  have hid_lt : id < s.nextId := by
    obtain ⟨-, hlt⟩ := storeInv_of_reachable hs
    obtain ⟨i0, hi0, hid0⟩ := h
    exact hid0 ▸ hlt i0 hi0
  refine ⟨?_, ?_, ?_, ?_, ?_⟩
  · simp [deleteItem, hcond]
  · simp [deleteItem, hcond]
  · simp only [deleteItem]
    split <;> rfl
  · intro i hi
    simp only [deleteItem, getItems] at hi
    have hmem : i ∈ s.items.filter (fun i => i.id != id) := by
      revert hi
      split <;> exact fun hi => hi
    have := (List.mem_filter.1 hmem).2
    simpa using this
  · have hnext : (deleteItem s id).2.nextId = s.nextId := by
      simp only [deleteItem]
      split <;> rfl
    simp only [postItems, hnext]
    exact fun he => absurd (he ▸ hid_lt) (Nat.lt_irrefl _)

/-- C5 witness: deleting id 1 from the reachable singleton store. -/
theorem deleteItem_removes_and_never_reuses_witness :
    (deleteItem { items := [{ id := 1, name := "Widget" }], nextId := 2 } 1).1 =
        { body := "Item deleted successfully", status := 200 } ∧
      (postItems (deleteItem { items := [{ id := 1, name := "Widget" }], nextId := 2 } 1).2
        "Gadget").1.id ≠ 1 := by
  obtain ⟨h1, -, -, -, h5⟩ :=
    deleteItem_removes_and_never_reuses (s := { items := [{ id := 1, name := "Widget" }], nextId := 2 })
      ⟨[Op.create "Widget"], rfl⟩ 1 "Gadget" ⟨{ id := 1, name := "Widget" }, by simp, rfl⟩
  exact ⟨h1, h5⟩

/-- C6. Get, Update and Delete answer the 404 "Item not found" response
exactly when no item with the given id is in the store; when one is
present, none of them does. -/
theorem notFound_iff_absent (s : Store) (id : Nat) (name : String) :
    ((getItem s id).1 = .err notFoundResponse ↔ ¬ ∃ i ∈ s.items, i.id = id) ∧
      ((putItem s id name).1 = .err notFoundResponse ↔ ¬ ∃ i ∈ s.items, i.id = id) ∧
      ((deleteItem s id).1 = { body := "Item not found", status := 404 } ↔
        ¬ ∃ i ∈ s.items, i.id = id) := by
  refine ⟨?_, ?_, ?_⟩
  · cases hfind : s.items.find? (fun i => i.id == id) with
    | some item =>
        simp only [getItem, hfind]
        constructor
        · intro he
          exact absurd he (by simp)
        · intro habs
          exact absurd ⟨item, List.mem_of_find?_eq_some hfind,
            by simpa using List.find?_some hfind⟩ habs
    | none =>
        simp only [getItem, hfind]
        constructor
        · intro _ ⟨i0, hi0, hid0⟩
          have := List.find?_eq_none.1 hfind i0 hi0
          rw [hid0] at this
          simp at this
        · intro _
          trivial
  · cases hfind : s.items.findIdx? (fun i => i.id == id) with
    | some idx =>
        simp only [putItem, hfind]
        constructor
        · intro he
          exact absurd he (by simp)
        · intro habs
          obtain ⟨hlen, hp, -⟩ := List.findIdx?_eq_some_iff_getElem.1 hfind
          exact absurd ⟨s.items[idx], List.getElem_mem hlen, by simpa using hp⟩ habs
    | none =>
        simp only [putItem, hfind]
        constructor
        · intro _ ⟨i0, hi0, hid0⟩
          have := List.findIdx?_eq_none_iff.1 hfind i0 hi0
          rw [hid0] at this
          simp at this
        · intro _
          trivial
  · by_cases hcond : (s.items.filter (fun i => i.id != id)).length = s.items.length
    · simp only [deleteItem, if_pos hcond]
      constructor
      · intro _ ⟨i0, hi0, hid0⟩
        have := List.filter_length_eq_length.1 hcond i0 hi0
        rw [hid0] at this
        simp at this
      · intro _
        trivial
    · simp only [deleteItem, if_neg hcond]
      constructor
      · intro he
        exact absurd he (by simp)
      · intro habs
        apply absurd hcond
        simp only [not_not]
        apply List.filter_length_eq_length.2
        intro a ha
        by_cases hid : a.id = id
        · exact absurd ⟨a, ha, hid⟩ habs
        · simpa using hid

/-- C7. `List()` leaves the store unchanged, and two List calls with no
mutation in between return the same sequence. -/
theorem getItems_pure_and_repeatable (s : Store) :
    (getItems s).2 = s ∧ (getItems (getItems s).2).1 = (getItems s).1 :=
  ⟨rfl, rfl⟩

/-- C9. `GET /` answers status 200 with the fixed banner text, leaves the
store unchanged, and its response does not depend on the store state. -/
theorem getRoot_banner (s t : Store) :
    (getRoot s).1.status = 200 ∧
      (getRoot s).1.body = "ElysiaJS CRUD In-Memory Example" ∧
      (getRoot s).2 = s ∧
      (getRoot s).1 = (getRoot t).1 :=
  ⟨rfl, rfl, rfl, rfl⟩

/-- C10. When no item with the given id is present, the failed Get,
Update and Delete all leave the store exactly as it was: same items,
same order, same `nextId`. -/
theorem notFound_leaves_store_unchanged (s : Store) (id : Nat) (name : String)
    (h : ¬ ∃ i ∈ s.items, i.id = id) :
    (getItem s id).2 = s ∧ (putItem s id name).2 = s ∧ (deleteItem s id).2 = s := by
  have habs : ∀ i ∈ s.items, (i.id == id) = false := by
    intro i hi
    by_cases hid : i.id = id
    · exact absurd ⟨i, hi, hid⟩ h
    · simpa using hid
  refine ⟨?_, ?_, ?_⟩
  · simp only [getItem]
    cases s.items.find? (fun i => i.id == id) <;> rfl
  · have hfind : s.items.findIdx? (fun i => i.id == id) = none :=
      List.findIdx?_eq_none_iff.2 habs
    simp [putItem, hfind]
  · have hfil : s.items.filter (fun i => i.id != id) = s.items := by
      apply List.filter_eq_self.2
      intro a ha
      simpa using habs a ha
    simp only [deleteItem, hfil]
    simp

/-- C10 witness: a miss on the empty initial store changes nothing. -/
theorem notFound_leaves_store_unchanged_witness :
    (getItem initStore 1).2 = initStore ∧ (putItem initStore 1 "x").2 = initStore ∧
      (deleteItem initStore 1).2 = initStore :=
  notFound_leaves_store_unchanged initStore 1 "x" (by simp [initStore])

/-- Heap-model store: JavaScript array objects live in a heap of list
cells; `itemsRef` is the reference held by the `store.items` field. -/
structure HeapStore where
  heap : List (List Item)
  itemsRef : Nat
  nextId : Nat
deriving Repr, DecidableEq

/-- Reading the array object a reference points to. -/
def HeapStore.deref (s : HeapStore) (r : Nat) : List Item := s.heap.getD r []

/-- The initial heap store: one array object, empty, `nextId = 1`. -/
def hInitStore : HeapStore := { heap := [[]], itemsRef := 0, nextId := 1 }

/-- `GET /items` under reference semantics: `return store.items` hands the
caller the reference to the internal array object, not a copy. -/
def hGetItems (s : HeapStore) : Nat × HeapStore := (s.itemsRef, s)

/-- `POST /items` under reference semantics: `store.items.push(newItem)`
mutates the array object in place; the reference does not change. -/
def hPostItems (s : HeapStore) (name : String) : Item × HeapStore :=
  let newItem : Item := { id := s.nextId, name := name }
  let arr := s.deref s.itemsRef
  (newItem,
    { s with heap := s.heap.set s.itemsRef (arr ++ [newItem]), nextId := s.nextId + 1 })

/-- `DELETE /items/:id` under reference semantics:
`store.items = store.items.filter(...)` allocates a fresh array object and
rebinds the `store.items` field to it; the old object is untouched. -/
def hDeleteItem (s : HeapStore) (id : Nat) : TextResponse × HeapStore :=
  let arr := s.deref s.itemsRef
  let newArr := arr.filter (fun i => i.id != id)
  let s' : HeapStore := { s with heap := s.heap ++ [newArr], itemsRef := s.heap.length }
  if newArr.length = arr.length then
    ({ body := "Item not found", status := 404 }, s')
  else
    ({ body := "Item deleted successfully", status := 200 }, s')

/-- C8 counterexample: the sequence returned by `List()` is aliased to the
store.  After `List()` on the initial store, a single `Create` changes
what the previously returned reference points to, so the returned value is
not a snapshot copy. -/
theorem list_snapshot_counterexample :
    (hPostItems hInitStore "Widget").2.deref (hGetItems hInitStore).1 ≠
      hInitStore.deref (hGetItems hInitStore).1 := by decide

/-- C8 amended: `GET /items` returns a live reference to the store's
internal array.  An in-place mutation (`Create`, via `push`) alters the
sequence seen through a previously returned `List()` reference, while
`Delete` rebinds the store to a freshly allocated array and leaves the
previously returned reference at the old contents. -/
theorem list_returns_live_reference (s : HeapStore) (h : s.itemsRef < s.heap.length)
    (name : String) (id : Nat) :
    (hPostItems s name).2.deref (hGetItems s).1 =
        s.deref (hGetItems s).1 ++ [{ id := s.nextId, name := name }] ∧
      (hDeleteItem s id).2.deref (hGetItems s).1 = s.deref (hGetItems s).1 := by
  constructor
  · simp only [hPostItems, hGetItems, HeapStore.deref]
    rw [List.getD_eq_getElem?_getD, List.getElem?_set_self h]
    rfl
  · simp only [hDeleteItem, hGetItems, HeapStore.deref]
    split
    · simp only
      rw [List.getD_eq_getElem?_getD, List.getElem?_append_left h,
        List.getD_eq_getElem?_getD]
    · simp only
      rw [List.getD_eq_getElem?_getD, List.getElem?_append_left h,
        List.getD_eq_getElem?_getD]

/-- C8 amended witness: the live-reference behaviour at the initial store. -/
theorem list_returns_live_reference_witness :
    (hPostItems hInitStore "Widget").2.deref (hGetItems hInitStore).1 =
        hInitStore.deref (hGetItems hInitStore).1 ++ [{ id := 1, name := "Widget" }] ∧
      (hDeleteItem hInitStore 1).2.deref (hGetItems hInitStore).1 =
        hInitStore.deref (hGetItems hInitStore).1 :=
  list_returns_live_reference hInitStore (by decide) "Widget" 1
